import Mathlib

/-! # goman `add` command: the name sanitizer `validateCmdName`

A shallow embedding of `cmd/add.go`.  Go strings are byte sequences; a byte is
a natural number below 256 and an ASCII byte is one below 128.  The scan loop of
`validateCmdName` is embedded iteration by iteration (`loopBody`), every index
and slice expression is checked against the length of the string, and the loop
is driven by a fuel counter so that all definitions evaluate in the kernel.
-/

namespace Goman

/-- Go `string`: a sequence of bytes (each below 256 in a well-formed string). -/
abbrev GoString := List Nat

/-- Bytes of an ASCII literal (only used on literals made of ASCII characters). -/
def ascii (s : String) : GoString := s.data.map Char.toNat

/-- Every byte of the string is an ASCII byte. -/
def isASCII (s : GoString) : Prop := ∀ b ∈ s, b < 128

/-- Every element of the sequence is a byte. -/
def isBytes (s : GoString) : Prop := ∀ b ∈ s, b < 256

/-- The test `c == '-' || c == '_'` of the source ('-' is 45, '_' is 95). -/
def isSep (c : Nat) : Bool := c == 45 || c == 95

/-- The string has no dash and no underscore. -/
def sepFree (s : GoString) : Prop := ∀ b ∈ s, isSep b = false

/-- Go `unicode.ToUpper` on the runes obtained from one byte (0..255): the ASCII
fast path, then the Latin-1 entries of `unicode.CaseRanges`.  Runes of 256 and
more never arise from `rune(source[i+1])` and are returned unchanged. -/
def toUpper (r : Nat) : Nat :=
  if r ≤ 127 then
    if 97 ≤ r ∧ r ≤ 122 then r - 32 else r
  else if r = 181 then 924
  else if 224 ≤ r ∧ r ≤ 246 then r - 32
  else if 248 ≤ r ∧ r ≤ 254 then r - 32
  else if r = 255 then 376
  else r

/-- Go conversion `string(r)` of an integer (rune or byte) to a string: the
UTF-8 encoding of the code point `r`, and of U+FFFD when `r` is not a valid
code point. -/
def runeToString (r : Nat) : GoString :=
  if r < 128 then [r]
  else if r < 2048 then [192 + r / 64, 128 + r % 64]
  else if (55296 ≤ r ∧ r ≤ 57343) ∨ 1114111 < r then [239, 191, 189]
  else if r < 65536 then [224 + r / 4096, 128 + (r / 64) % 64, 128 + r % 64]
  else [240 + r / 262144, 128 + (r / 4096) % 64, 128 + (r / 64) % 64, 128 + r % 64]

/-- Go slice expression `source[:i]`: fails when `i` exceeds the length. -/
def sliceTo (source : GoString) (i : Nat) : Option GoString :=
  if i ≤ source.length then some (source.take i) else none

/-- How one iteration of the scan loop ends. -/
inductive Step where
  | next (i : Nat) (output : GoString)
  | stop (output : GoString)
  | panic
  deriving DecidableEq, Repr

/-- The value of a run: a string, an index or slice out of range, or fuel
exhausted before the loop condition became false. -/
inductive Result where
  | ok (s : GoString)
  | outOfRange
  | outOfFuel
  deriving DecidableEq, Repr

/-- One iteration of the loop `for i < l` of `validateCmdName`, entered with
`i < l`: `next` is `continue` or the end of the body, `stop` is `break`. -/
def loopBody (source : GoString) (i : Nat) (output : GoString) : Step :=
  match source[i]? with
  | none => .panic
  | some c =>
    if isSep c then
      match (if output = [] then sliceTo source i else some output) with
      | none => .panic
      | some output =>
        if (i : Int) = (source.length : Int) - 1 then .stop output
        else
          match source[i + 1]? with
          | none => .panic
          | some d =>
            if isSep d then .next (i + 1) output
            else .next (i + 2) (output ++ runeToString (toUpper d))
    else
      .next (i + 1) (if output ≠ [] then output ++ runeToString c else output)

/-- The loop `for i < l { ... }`, with at most `fuel` iterations; the value is
`output` when the loop is left. -/
def loop (source : GoString) : Nat → Nat → GoString → Result
  | 0, i, output => if i < source.length then .outOfFuel else .ok output
  | fuel + 1, i, output =>
    if i < source.length then
      match loopBody source i output with
      | .next i2 output2 => loop source fuel i2 output2
      | .stop output2 => .ok output2
      | .panic => .outOfRange
    else .ok output

/-- The function `validateCmdName(source string) string`: the loop starts at
`i = 0` with the empty `output`; `len(source)` iterations are allowed. -/
def validateCmdName (source : GoString) : Result :=
  match loop source source.length 0 [] with
  | .ok output => if output = [] then .ok source else .ok output
  | r => r

/-! ## Closed form of the scan, used to reason about the loop -/

/-- What the loop appends from a position on, once `output` is non-empty. -/
def scan : GoString → GoString
  | [] => []
  | [c] => if isSep c then [] else runeToString c
  | c :: d :: rest =>
    if isSep c then
      if isSep d then scan (d :: rest) else runeToString (toUpper d) ++ scan rest
    else runeToString c ++ scan (d :: rest)

/-- The result for the rest of a string that starts with a non-separator byte:
bytes are kept as they are up to the first separator, then `scan` applies. -/
def verbatim : GoString → GoString
  | [] => []
  | c :: t => if isSep c then scan (c :: t) else c :: verbatim t

/-- The result for the rest of a string whose first byte `c` is a separator. -/
def lead (c : Nat) : GoString → GoString
  | [] => [c]
  | d :: rest => if isSep d then c :: scan (d :: rest) else runeToString (toUpper d) ++ scan rest

/-- The string computed by `validateCmdName`, by recursion on the input. -/
def closedForm : GoString → GoString
  | [] => []
  | c :: t => if isSep c then lead c t else c :: verbatim t

/-! ## Vocabulary of the properties -/

instance (s : GoString) : Decidable (isASCII s) := by
  unfold isASCII; infer_instance

instance (s : GoString) : Decidable (sepFree s) := by
  unfold sepFree; infer_instance

/-- Every byte of the string is a dash or an underscore. -/
def allSep (s : GoString) : Prop := ∀ b ∈ s, isSep b = true

instance (s : GoString) : Decidable (allSep s) := by
  unfold allSep; infer_instance

/-- ASCII upper-casing: 'a'..'z' (97..122) go to 'A'..'Z', other bytes stay. -/
def upper (b : Nat) : Nat := if 97 ≤ b ∧ b ≤ 122 then b - 32 else b

/-- A word with its first byte upper-cased and the rest untouched. -/
def cap : GoString → GoString
  | [] => []
  | b :: t => upper b :: t

/-- The text `r1 ++ w1 ++ ... ++ rn ++ wn` of a list of (run, word) pairs. -/
def joinRuns : List (GoString × GoString) → GoString
  | [] => []
  | (r, w) :: ps => r ++ w ++ joinRuns ps

/-- The text `cap(w1) ++ ... ++ cap(wn)` of a list of (run, word) pairs. -/
def capWords : List (GoString × GoString) → GoString
  | [] => []
  | (_, w) :: ps => cap w ++ capWords ps

/-! ## The `add` command: naming of the generated file and of its identifiers -/

/-- Default of the flag `parent`, set in `init`. -/
def parentNameDefault : GoString := ascii "rootCmd"

/-- The lines of the template literal of `createCmdFile`, the two back-quotes
spliced in by concatenation included. -/
def templateLines : List String :=
  [
    "\x7b\x7bcomment .copyright\x7d\x7d\n",
    "\x7b\x7bif .license\x7d\x7d\x7b\x7bcomment .license\x7d\x7d\x7b\x7bend\x7d\x7d\n",
    "\n",
    "package \x7b\x7b.cmdPackage\x7d\x7d\n",
    "\n",
    "import (\n",
    "\t\"fmt\"\n",
    "\n",
    "\t\"github.com/govenue/goman\"\n",
    ")\n",
    "\n",
    "// \x7b\x7b.cmdName\x7d\x7dCmd represents the \x7b\x7b.cmdName\x7d\x7d command\n",
    "var \x7b\x7b.cmdName\x7d\x7dCmd = &goman.Command\x7b\n",
    "\tUse:   \"\x7b\x7b.cmdName\x7d\x7d\",\n",
    "\tShort: \"A brief description of your command\",\n",
    "\tLong: `A longer description that spans multiple lines and likely contains examples\n",
    "and usage of using your command. For example:\n",
    "\n",
    "goman is a CLI library for Go that empowers applications.\n",
    "This application is a tool to generate the needed files\n",
    "to quickly create a goman application.`,\n",
    "\tRun: func(cmd *goman.Command, args []string) \x7b\n",
    "\t\tfmt.Println(\"\x7b\x7b.cmdName\x7d\x7d called\")\n",
    "\t\x7d,\n",
    "\x7d\n",
    "\n",
    "func init() \x7b\n",
    "\t\x7b\x7b.parentName\x7d\x7d.AddCommand(\x7b\x7b.cmdName\x7d\x7dCmd)\n",
    "\n",
    "\t// Here you will define your flags and configuration settings.\n",
    "\n",
    "\t// goman supports Persistent Flags which will work for this command\n",
    "\t// and all subcommands, e.g.:\n",
    "\t// \x7b\x7b.cmdName\x7d\x7dCmd.PersistentFlags().String(\"foo\", \"\", \"A help for foo\")\n",
    "\n",
    "\t// goman supports local flags which will only run when this command\n",
    "\t// is called directly, e.g.:\n",
    "\t// \x7b\x7b.cmdName\x7d\x7dCmd.Flags().BoolP(\"toggle\", \"t\", false, \"Help message for toggle\")\n",
    "\x7d\n"
  ]

/-- The template literal of `createCmdFile`. -/
def template : GoString := templateLines.flatMap ascii

/-- The action that prints the field `name` of the data. -/
def fieldAction (name : GoString) : GoString :=
  ascii "\x7b\x7b." ++ name ++ ascii "\x7d\x7d"

/-- Modelled from the spec: `executeTemplate` is defined outside `cmd/add.go`;
the spec calls it `executeTemplate(templateText, variables) -> (renderedText,
error)` and says that only the substituted fields vary in the fixed skeleton.
This is its effect on field actions: one pass over the template text in which
every action that prints a field bound in `data` is replaced by the bound value
(`skip` counts the bytes of an action that remain to be passed over).  Other
actions are left as they are. -/
def substituteFields (data : List (GoString × GoString)) : Nat → GoString → GoString
  | _, [] => []
  | skip + 1, _ :: t => substituteFields data skip t
  | 0, c :: t =>
    match data.find? (fun kv => (fieldAction kv.1).isPrefixOf (c :: t)) with
    | some kv => kv.2 ++ substituteFields data ((fieldAction kv.1).length - 1) t
    | none => c :: substituteFields data 0 t

/-- The function `createCmdFile`, as far as the two names go: the file written is
`path`, and its contents come from the template with the fields `parentName`
and `cmdName` bound to the flag value and to the command name. -/
def createCmdFile (parentName path cmdName : GoString) : GoString × GoString :=
  (path, substituteFields [(ascii "parentName", parentName), (ascii "cmdName", cmdName)] 0
    template)

/-- The function `Run` of `addCmd`, after the project has been resolved:
`cmdPath` is `project.CmdPath()` and `join` is `filepath.Join`.  Without an
argument the command ends with a fatal error (`none`). -/
def addCmdRun (join : GoString → GoString → GoString) (cmdPath parentName : GoString)
    (args : List GoString) : Option (GoString × GoString) :=
  match args with
  | [] => none
  | arg :: _ =>
    match validateCmdName arg with
    | .ok cmdName => some (createCmdFile parentName (join cmdPath (cmdName ++ ascii ".go")) cmdName)
    | _ => none

/-! ## Iteration count, reference scanner and letters of a name -/

/-- Number of times the body of the loop `for i < l` is executed from the state
`(i, output)`, with at most `fuel` iterations: the recursion of `loop`, counting
the iterations instead of returning `output`. -/
def iterations (source : GoString) : Nat → Nat → GoString → Nat
  | 0, _, _ => 0
  | fuel + 1, i, output =>
    if i < source.length then
      match loopBody source i output with
      | .next i2 output2 => 1 + iterations source fuel i2 output2
      | .stop _ => 1
      | .panic => 1
    else 0

/-- The scanner of section 4.1 of the specification, on ASCII input, from
position `i` with the bytes `rest` still to read.  `seen` tells whether a
separator has been seen, `acc` is the output accumulator.  At a separator the
accumulator is initialized with `source[0:i]` if it is the first one seen; a
separator that is the final byte stops the scan; a separator whose next byte is
a separator is skipped; otherwise the next byte is upper-cased, appended, and
the position advances by 2.  Every other byte is copied once a separator has
been seen.  At the end `source` is returned if no separator was found, the
accumulator otherwise. -/
def referenceScan (source : GoString) : Nat → Bool → GoString → GoString → GoString
  | _, seen, acc, [] => if seen then acc else source
  | i, seen, acc, [c] =>
    if isSep c then (if seen then acc else source.take i)
    else if seen then acc ++ [c] else source
  | i, seen, acc, c :: d :: rest =>
    if isSep c then
      if isSep d then
        referenceScan source (i + 1) true (if seen then acc else source.take i) (d :: rest)
      else
        referenceScan source (i + 2) true ((if seen then acc else source.take i) ++ [upper d]) rest
    else
      referenceScan source (i + 1) seen (if seen then acc ++ [c] else acc) (d :: rest)

/-- The reference sanitizer of the specification: the scan starts at position 0,
no separator seen, with an empty accumulator. -/
def reference (source : GoString) : GoString :=
  referenceScan source 0 false [] source

/-- ASCII lower-casing: 'A'..'Z' (65..90) go to 'a'..'z', other bytes stay. -/
def lower (b : Nat) : Nat := if 65 ≤ b ∧ b ≤ 90 then b + 32 else b

/-- The string without its dashes and underscores, lower-cased. -/
def letters (s : GoString) : GoString := (s.filter (fun b => !isSep b)).map lower

/-- The string is one separator, or its first two bytes are separators. -/
def startsWithBareSeparator : GoString → Bool
  | [] => false
  | [c] => isSep c
  | c :: d :: _ => isSep c && isSep d

/-! ## The loop computes the closed form -/

theorem runeToString_ne_nil (r : Nat) : runeToString r ≠ [] := by
  unfold runeToString
  split_ifs <;> simp

theorem drop_cons_facts {source : GoString} {i c : Nat} {t : GoString}
    (h : source.drop i = c :: t) :
    source[i]? = some c ∧ source.drop (i + 1) = t ∧ source.length = i + 1 + t.length := by
  have h1 : source[i]? = some c := by
    have := List.getElem?_drop source i 0
    rw [h] at this
    simpa using this.symm
  have h2 : source.drop (i + 1) = t := by
    have := List.drop_drop 1 i source
    rw [h] at this
    simpa using this.symm
  have h3 : (source.drop i).length = source.length - i := List.length_drop i source
  rw [h] at h3
  simp at h3
  have h4 : i < source.length := by
    by_contra hc
    have : source.drop i = [] := List.drop_of_length_le (by omega)
    rw [this] at h
    cases h
  exact ⟨h1, h2, by omega⟩

theorem loop_next {source : GoString} {i i2 : Nat} {output output2 : GoString} (fuel : Nat)
    (hi : i < source.length) (hb : loopBody source i output = .next i2 output2) :
    loop source (fuel + 1) i output = loop source fuel i2 output2 := by
  rw [loop, if_pos hi, hb]

theorem loop_stop {source : GoString} {i : Nat} {output output2 : GoString} (fuel : Nat)
    (hi : i < source.length) (hb : loopBody source i output = .stop output2) :
    loop source (fuel + 1) i output = .ok output2 := by
  rw [loop, if_pos hi, hb]

/-- From a state with a non-empty `output` the loop appends `scan` of the rest. -/
theorem loop_scan (source : GoString) :
    ∀ (fuel i : Nat) (output : GoString), output ≠ [] → source.length ≤ i + fuel →
      loop source fuel i output = .ok (output ++ scan (source.drop i)) := by
  intro fuel
  induction fuel with
  | zero =>
    intro i output _ hlen
    have hd : source.drop i = [] := List.drop_of_length_le (by omega)
    have hi : ¬ i < source.length := by omega
    simp [loop, hi, hd, scan]
  | succ fuel ih =>
    intro i output hne hlen
    cases hd : source.drop i with
    | nil =>
      have hi : ¬ i < source.length := by
        have := List.drop_eq_nil_iff.mp hd
        omega
      simp [loop, hi, scan]
    | cons c t =>
      obtain ⟨hc, ht, hl⟩ := drop_cons_facts hd
      have hi : i < source.length := by omega
      by_cases hs : isSep c = true
      · cases t with
        | nil =>
          have hlast : (i : Int) = (source.length : Int) - 1 := by
            simp at hl; omega
          simp [loop, hi, loopBody, hc, hs, hne, hlast, scan]
        | cons d rest =>
          obtain ⟨hc2, ht2, hl2⟩ := drop_cons_facts ht
          have hlast : ¬ (i : Int) = (source.length : Int) - 1 := by
            simp at hl; omega
          by_cases hs2 : isSep d = true
          · have := ih (i + 1) output hne (by omega)
            simp [loop, hi, loopBody, hc, hs, hne, hlast, hc2, hs2, scan, this, ht]
          · have := ih (i + 2) (output ++ runeToString (toUpper d)) (by simp [hne]) (by omega)
            simp [loop, hi, loopBody, hc, hs, hne, hlast, hc2, hs2, scan, this, ht2]
      · have := ih (i + 1) (output ++ runeToString c) (by simp [hne]) (by omega)
        cases t with
        | nil => simp [loop, hi, loopBody, hc, hs, hne, scan, this, ht]
        | cons d rest => simp [loop, hi, loopBody, hc, hs, hne, scan, this, ht]

/-- At a separator found at a position `i > 0` with `output` still empty, the
loop sets `output` to `source[:i]` and appends `scan` of the rest. -/
theorem loop_at_sep (source : GoString) (fuel i c : Nat) (t : GoString)
    (hpos : 0 < i) (hd : source.drop i = c :: t) (hs : isSep c = true)
    (hlen : source.length ≤ i + fuel) :
    loop source fuel i [] = .ok (source.take i ++ scan (c :: t)) := by
  obtain ⟨hc, ht, hl⟩ := drop_cons_facts hd
  have hi : i < source.length := by omega
  have hle : i ≤ source.length := by omega
  have htake : source.take i ≠ [] := by
    intro h
    have := congrArg List.length h
    rw [List.length_take, List.length_nil] at this
    omega
  cases fuel with
  | zero => omega
  | succ fuel =>
    cases t with
    | nil =>
      have hlast : (i : Int) = (source.length : Int) - 1 := by
        simp at hl; omega
      simp [loop, hi, loopBody, hc, hs, sliceTo, hle, hlast, scan]
    | cons d rest =>
      obtain ⟨hc2, ht2, hl2⟩ := drop_cons_facts ht
      have hlast : ¬ (i : Int) = (source.length : Int) - 1 := by
        simp at hl; omega
      by_cases hs2 : isSep d = true
      · have := loop_scan source fuel (i + 1) (source.take i) htake (by omega)
        simp [loop, hi, loopBody, hc, hs, sliceTo, hle, hlast, hc2, hs2, scan, this, ht]
      · have := loop_scan source fuel (i + 2) (source.take i ++ runeToString (toUpper d))
          (by simp [htake]) (by omega)
        simp [loop, hi, loopBody, hc, hs, sliceTo, hle, hlast, hc2, hs2, scan, this, ht2]

/-- While no separator has been met `output` stays empty; the final choice
between `source` and `output` then yields the prefix followed by `verbatim`. -/
theorem loop_verbatim :
    ∀ (t p : GoString) (fuel : Nat), p ≠ [] → t.length ≤ fuel →
      ∃ out, loop (p ++ t) fuel p.length [] = .ok out ∧
        (if out = [] then p ++ t else out) = p ++ verbatim t := by
  intro t
  induction t with
  | nil =>
    intro p fuel _ _
    refine ⟨[], ?_, by simp [verbatim]⟩
    cases fuel <;> simp [loop]
  | cons c t ih =>
    intro p fuel hp hlen
    have hd : (p ++ c :: t).drop p.length = c :: t := List.drop_left p (c :: t)
    by_cases hs : isSep c = true
    · refine ⟨p ++ scan (c :: t), ?_, by simp [hp, verbatim, hs]⟩
      have := loop_at_sep (p ++ c :: t) fuel p.length c t
        (List.length_pos.mpr hp) hd hs (by simp at hlen ⊢; omega)
      simpa using this
    · cases fuel with
      | zero => simp at hlen
      | succ fuel =>
        obtain ⟨hc, -, hl⟩ := drop_cons_facts hd
        have hi : p.length < (p ++ c :: t).length := by simp
        obtain ⟨out, hout, hfin⟩ := ih (p ++ [c]) fuel (by simp) (by simpa using hlen)
        refine ⟨out, ?_, ?_⟩
        · have hstep : loop (p ++ c :: t) (fuel + 1) p.length []
              = loop (p ++ c :: t) fuel (p.length + 1) [] := by
            rw [loop, if_pos hi]
            simp [loopBody, hc, hs]
          rw [hstep]
          simpa using hout
        · simpa [verbatim, hs] using hfin

/-- The function always returns, and returns the closed form. -/
theorem validateCmdName_eq (source : GoString) :
    validateCmdName source = .ok (closedForm source) := by
  cases source with
  | nil => simp [validateCmdName, loop, closedForm]
  | cons c t =>
    by_cases hs : isSep c = true
    · cases t with
      | nil =>
        have hb : loopBody [c] 0 [] = .stop [] := by
          simp [loopBody, hs, sliceTo]
        have := loop_stop 0 (by simp) hb
        simp [validateCmdName, this, closedForm, hs, lead]
      | cons d rest =>
        by_cases hs2 : isSep d = true
        · have hb : loopBody (c :: d :: rest) 0 [] = .next 1 [] := by
            have : ¬ (0 : Int) = (rest.length : Int) + 1 := by omega
            simp [loopBody, hs, hs2, sliceTo, this]
          have h1 := loop_next (rest.length + 1) (by simp) hb
          have h2 := loop_at_sep (c :: d :: rest) (rest.length + 1) 1 d rest
            (by omega) (by simp) hs2 (by simp; omega)
          simp [validateCmdName, h1, h2, closedForm, hs, lead, hs2]
        · have hb : loopBody (c :: d :: rest) 0 []
              = .next 2 (runeToString (toUpper d)) := by
            have : ¬ (0 : Int) = (rest.length : Int) + 1 := by omega
            simp [loopBody, hs, hs2, sliceTo, this]
          have h1 := loop_next (rest.length + 1) (by simp) hb
          have h2 := loop_scan (c :: d :: rest) (rest.length + 1) 2 (runeToString (toUpper d))
            (runeToString_ne_nil _) (by simp; omega)
          simp [validateCmdName, h1, h2, closedForm, hs, lead, hs2, runeToString_ne_nil]
    · obtain ⟨out, hout, hfin⟩ := loop_verbatim t [c] t.length (by simp) (le_refl _)
      have hb : loopBody (c :: t) 0 [] = .next 1 [] := by
        simp [loopBody, hs]
      have hstep := loop_next t.length (by simp) hb
      simp only [List.singleton_append, List.length_singleton] at hout hfin
      simp only [validateCmdName, List.length_cons, hstep, hout, closedForm, hs]
      by_cases ho : out = []
      · simpa [ho] using hfin
      · simpa [ho] using hfin

/-! ## Equations of the closed form -/

theorem scan_cons_nonsep {c : Nat} (t : GoString) (hc : isSep c = false) :
    scan (c :: t) = runeToString c ++ scan t := by
  cases t <;> simp [scan, hc]

theorem scan_single_sep {c : Nat} (hc : isSep c = true) : scan [c] = [] := by
  simp [scan, hc]

theorem scan_sep_sep {c d : Nat} (rest : GoString) (hc : isSep c = true)
    (hd : isSep d = true) : scan (c :: d :: rest) = scan (d :: rest) := by
  simp [scan, hc, hd]

theorem scan_sep_nonsep {c d : Nat} (rest : GoString) (hc : isSep c = true)
    (hd : isSep d = false) :
    scan (c :: d :: rest) = runeToString (toUpper d) ++ scan rest := by
  simp [scan, hc, hd]

/-- A separator at the very end adds nothing. -/
theorem scan_snoc_sep {c : Nat} (hc : isSep c = true) (q : GoString) :
    scan (q ++ [c]) = scan q := by
  induction q using scan.induct with
  | case1 => simp [scan, hc]
  | case2 a ha => simp [scan, ha, hc]
  | case3 a ha => simp [scan, ha, hc]
  | case4 a d rest ha hd ih =>
    have := scan_sep_sep (rest ++ [c]) ha hd
    simp only [List.cons_append] at this ih ⊢
    rw [this, ih, scan_sep_sep rest ha hd]
  | case5 a d rest ha hd ih =>
    simp only [Bool.not_eq_true] at hd
    have := scan_sep_nonsep (rest ++ [c]) ha hd
    simp only [List.cons_append] at this ⊢
    rw [this, ih, scan_sep_nonsep rest ha hd]
  | case6 a d rest ha ih =>
    simp only [Bool.not_eq_true] at ha
    have := scan_cons_nonsep (d :: rest ++ [c]) ha
    simp only [List.cons_append] at this ih ⊢
    rw [this, ih, scan_cons_nonsep (d :: rest) ha]

/-- The first of two consecutive separators adds nothing. -/
theorem scan_collapse {c1 c2 : Nat} (h1 : isSep c1 = true) (h2 : isSep c2 = true)
    (b q : GoString) : scan (q ++ c1 :: c2 :: b) = scan (q ++ c2 :: b) := by
  induction q using scan.induct with
  | case1 => simp [scan, h1, h2]
  | case2 a ha =>
    simp only [List.singleton_append]
    rw [scan_sep_sep _ ha h1, scan_sep_sep _ h1 h2, scan_sep_sep _ ha h2]
  | case3 a ha =>
    simp only [Bool.not_eq_true] at ha
    simp only [List.singleton_append]
    rw [scan_cons_nonsep _ ha, scan_sep_sep _ h1 h2, scan_cons_nonsep _ ha]
  | case4 a d rest ha hd ih =>
    simp only [List.cons_append] at ih ⊢
    rw [scan_sep_sep _ ha hd, ih, scan_sep_sep _ ha hd]
  | case5 a d rest ha hd ih =>
    simp only [Bool.not_eq_true] at hd
    simp only [List.cons_append] at ih ⊢
    rw [scan_sep_nonsep _ ha hd, ih, scan_sep_nonsep _ ha hd]
  | case6 a d rest ha ih =>
    simp only [Bool.not_eq_true] at ha
    simp only [List.cons_append] at ih ⊢
    rw [scan_cons_nonsep _ ha, ih, scan_cons_nonsep _ ha]

theorem verbatim_snoc_sep {c : Nat} (hc : isSep c = true) (t : GoString) :
    verbatim (t ++ [c]) = verbatim t := by
  induction t with
  | nil => simp [verbatim, hc, scan]
  | cons a t ih =>
    by_cases ha : isSep a = true
    · have := scan_snoc_sep hc (a :: t)
      simpa [verbatim, ha] using this
    · simp [verbatim, ha, ih]

theorem verbatim_collapse {c1 c2 : Nat} (h1 : isSep c1 = true) (h2 : isSep c2 = true)
    (b t : GoString) : verbatim (t ++ c1 :: c2 :: b) = verbatim (t ++ c2 :: b) := by
  induction t with
  | nil => simp [verbatim, h1, h2, scan]
  | cons a t ih =>
    by_cases ha : isSep a = true
    · have := scan_collapse h1 h2 b (a :: t)
      simpa [verbatim, ha] using this
    · simp [verbatim, ha, ih]

theorem closedForm_snoc_sep {c : Nat} (hc : isSep c = true) (s : GoString) (hs : s ≠ []) :
    closedForm (s ++ [c]) = closedForm s := by
  cases s with
  | nil => exact absurd rfl hs
  | cons x t =>
    by_cases hx : isSep x = true
    · cases t with
      | nil => simp [closedForm, hx, lead, hc, scan]
      | cons d rest =>
        by_cases hd : isSep d = true
        · have := scan_snoc_sep hc (d :: rest)
          simpa [closedForm, hx, lead, hd] using this
        · have := scan_snoc_sep hc rest
          simpa [closedForm, hx, lead, hd] using this
    · simp [closedForm, hx, verbatim_snoc_sep hc]

theorem closedForm_collapse {c1 c2 : Nat} (h1 : isSep c1 = true) (h2 : isSep c2 = true)
    (a b : GoString) (ha : a ≠ []) :
    closedForm (a ++ c1 :: c2 :: b) = closedForm (a ++ c2 :: b) := by
  cases a with
  | nil => exact absurd rfl ha
  | cons x t =>
    by_cases hx : isSep x = true
    · cases t with
      | nil => simp [closedForm, hx, lead, h1, h2, scan]
      | cons d rest =>
        by_cases hd : isSep d = true
        · have := scan_collapse h1 h2 b (d :: rest)
          simpa [closedForm, hx, lead, hd] using this
        · have := scan_collapse h1 h2 b rest
          simpa [closedForm, hx, lead, hd] using this
    · simp [closedForm, hx, verbatim_collapse h1 h2]

/-! ## ASCII words -/

theorem runeToString_ascii {b : Nat} (hb : b < 128) : runeToString b = [b] := by
  simp [runeToString, hb]

theorem toUpper_ascii {b : Nat} (hb : b < 128) : toUpper b = upper b := by
  have : b ≤ 127 := by omega
  simp [toUpper, upper, this]

theorem upper_lt {b : Nat} (hb : b < 128) : upper b < 128 := by
  unfold upper
  split_ifs <;> omega

theorem runeToString_toUpper_ascii {b : Nat} (hb : b < 128) :
    runeToString (toUpper b) = [upper b] := by
  rw [toUpper_ascii hb, runeToString_ascii (upper_lt hb)]

theorem scan_word_append (rest : GoString) :
    ∀ w : GoString, isASCII w → sepFree w → scan (w ++ rest) = w ++ scan rest := by
  intro w
  induction w with
  | nil => intro _ _; rfl
  | cons a w ih =>
    intro hA hF
    have ha : isSep a = false := hF a (by simp)
    have hlt : a < 128 := hA a (by simp)
    have hA2 : isASCII w := fun b hb => hA b (by simp [hb])
    have hF2 : sepFree w := fun b hb => hF b (by simp [hb])
    simp only [List.cons_append]
    rw [scan_cons_nonsep _ ha, runeToString_ascii hlt, ih hA2 hF2]
    rfl

theorem verbatim_word_append (rest : GoString) :
    ∀ w : GoString, sepFree w → verbatim (w ++ rest) = w ++ verbatim rest := by
  intro w
  induction w with
  | nil => intro _; rfl
  | cons a w ih =>
    intro hF
    have ha : isSep a = false := hF a (by simp)
    have hF2 : sepFree w := fun b hb => hF b (by simp [hb])
    simp [verbatim, ha, ih hF2]

theorem scan_allSep : ∀ t : GoString, allSep t → scan t = [] := by
  intro t
  induction t using scan.induct with
  | case1 => intro _; rfl
  | case2 a ha => intro _; simp [scan, ha]
  | case3 a ha => intro h; exact absurd (h a (by simp)) ha
  | case4 a d rest ha hd ih =>
    intro h
    rw [scan_sep_sep _ ha hd]
    exact ih (fun b hb => h b (by simp [List.mem_cons] at hb ⊢; tauto))
  | case5 a d rest ha hd ih => intro h; exact absurd (h d (by simp)) hd
  | case6 a d rest ha ih => intro h; exact absurd (h a (by simp)) ha

/-- A non-empty run of separators in front of a byte upper-cases that byte. -/
theorem scan_run (d : Nat) (rest : GoString) (hd : isSep d = false) :
    ∀ r : GoString, r ≠ [] → allSep r →
      scan (r ++ d :: rest) = runeToString (toUpper d) ++ scan rest := by
  intro r
  induction r with
  | nil => intro h _; exact absurd rfl h
  | cons c r ih =>
    intro _ hall
    have hc : isSep c = true := hall c (by simp)
    cases r with
    | nil => simpa using scan_sep_nonsep rest hc hd
    | cons c2 r2 =>
      have hc2 : isSep c2 = true := hall c2 (by simp)
      have := ih (by simp) (fun b hb => hall b (by simp [List.mem_cons] at hb ⊢; tauto))
      simp only [List.cons_append] at this ⊢
      rw [scan_sep_sep _ hc hc2, this]

theorem scan_joinRuns (t : GoString) (ht : allSep t) :
    ∀ ps : List (GoString × GoString),
      (∀ p ∈ ps, p.1 ≠ [] ∧ allSep p.1 ∧ p.2 ≠ [] ∧ isASCII p.2 ∧ sepFree p.2) →
      scan (joinRuns ps ++ t) = capWords ps := by
  intro ps
  induction ps with
  | nil => intro _; simpa [joinRuns, capWords] using scan_allSep t ht
  | cons p ps ih =>
    intro h
    obtain ⟨r, w⟩ := p
    obtain ⟨hr, hrs, hw, hwA, hwF⟩ := h (r, w) (by simp)
    have ih2 := ih (fun q hq => h q (by simp [hq]))
    cases w with
    | nil => exact absurd rfl hw
    | cons d w2 =>
      have hd : isSep d = false := hwF d (by simp)
      have hlt : d < 128 := hwA d (by simp)
      have hA2 : isASCII w2 := fun b hb => hwA b (by simp [hb])
      have hF2 : sepFree w2 := fun b hb => hwF b (by simp [hb])
      have h1 := scan_run d (w2 ++ (joinRuns ps ++ t)) hd r hr hrs
      have h2 := scan_word_append (joinRuns ps ++ t) w2 hA2 hF2
      simp only [joinRuns, capWords, cap, List.append_assoc, List.cons_append] at h1 ⊢
      rw [h1, h2, ih2, runeToString_toUpper_ascii hlt]
      rfl

theorem verbatim_joinRuns (t : GoString) (ht : allSep t) (ps : List (GoString × GoString))
    (h : ∀ p ∈ ps, p.1 ≠ [] ∧ allSep p.1 ∧ p.2 ≠ [] ∧ isASCII p.2 ∧ sepFree p.2) :
    verbatim (joinRuns ps ++ t) = capWords ps := by
  have hscan := scan_joinRuns t ht ps h
  cases hx : joinRuns ps ++ t with
  | nil =>
    rw [hx] at hscan
    simpa [verbatim, scan] using hscan
  | cons c rest =>
    have hc : isSep c = true := by
      cases ps with
      | nil =>
        simp only [joinRuns, List.nil_append] at hx
        exact ht c (by simp [hx])
      | cons p ps =>
        obtain ⟨r, w⟩ := p
        obtain ⟨hr, hrs, -⟩ := h (r, w) (by simp)
        cases r with
        | nil => exact absurd rfl hr
        | cons c2 r2 =>
          simp only [joinRuns, List.cons_append, List.cons.injEq] at hx
          exact hx.1 ▸ hrs c2 (by simp)
    rw [hx] at hscan
    simpa [verbatim, hc] using hscan

theorem takeWhile_verbatim (t : GoString) :
    t.takeWhile (fun b => !isSep b) <+: verbatim t := by
  induction t with
  | nil => simp [verbatim]
  | cons a t ih =>
    by_cases ha : isSep a = true
    · simp [List.takeWhile, ha]
    · simp only [Bool.not_eq_true] at ha
      simp only [List.takeWhile, ha, verbatim, Bool.not_false, Bool.false_eq_true, if_false]
      exact (List.prefix_cons_inj a).mpr ih

/-! ## The properties of `validateCmdName` -/

/-- C1: the result can keep a dash: on the ASCII input `--a` the function returns
`-A`, and on the input `-` it returns `-`, so the returned string is not always
free of dashes and underscores. -/
theorem validateCmdName_keeps_dash :
    isASCII (ascii "--a") ∧ validateCmdName (ascii "--a") = .ok (ascii "-A") ∧
      45 ∈ ascii "-A" ∧ validateCmdName (ascii "-") = .ok (ascii "-") := by
  decide

/-- C2: a string without dash and underscore, whatever its bytes, is returned
unchanged. -/
theorem validateCmdName_identity (x : GoString) (hx : sepFree x) :
    validateCmdName x = .ok x := by
  rw [validateCmdName_eq]
  cases x with
  | nil => rfl
  | cons c t =>
    have hc : isSep c = false := hx c (by simp)
    have ht : sepFree t := fun b hb => hx b (by simp [hb])
    have := verbatim_word_append [] t ht
    simp only [List.append_nil] at this
    simp [closedForm, hc, this, verbatim]

theorem validateCmdName_identity_witness :
    sepFree (ascii "Foo9") ∧ validateCmdName (ascii "Foo9") = .ok (ascii "Foo9") :=
  ⟨by decide, validateCmdName_identity (ascii "Foo9") (by decide)⟩

/-- C3: for separator-free ASCII strings `u` (possibly empty) and `v` (non-empty)
and a separator `c`, the result on `u ++ [c] ++ v` is `u`, then the first byte of
`v` upper-cased, then the rest of `v`. -/
theorem validateCmdName_one_separator (u v : GoString) (c : Nat)
    (hu : isASCII u) (huF : sepFree u) (hv : isASCII v) (hvF : sepFree v)
    (hne : v ≠ []) (hc : isSep c = true) :
    validateCmdName (u ++ [c] ++ v) = .ok (u ++ [upper (v.head hne)] ++ v.tail) := by
  rw [validateCmdName_eq]
  cases v with
  | nil => exact absurd rfl hne
  | cons d w =>
    have hd : isSep d = false := hvF d (by simp)
    have hlt : d < 128 := hv d (by simp)
    have hA2 : isASCII w := fun b hb => hv b (by simp [hb])
    have hF2 : sepFree w := fun b hb => hvF b (by simp [hb])
    have hw := scan_word_append [] w hA2 hF2
    simp only [List.append_nil, scan] at hw
    have hscan : scan (c :: d :: w) = upper d :: w := by
      rw [scan_sep_nonsep _ hc hd, runeToString_toUpper_ascii hlt, hw]
      rfl
    cases u with
    | nil =>
      simp [closedForm, hc, lead, hd, runeToString_toUpper_ascii hlt, hw]
    | cons a u2 =>
      have ha : isSep a = false := huF a (by simp)
      have huF2 : sepFree u2 := fun b hb => huF b (by simp [hb])
      have := verbatim_word_append (c :: d :: w) u2 huF2
      simp [closedForm, ha, this, verbatim, hc, hscan]

theorem validateCmdName_one_separator_witness :
    validateCmdName (ascii "foo" ++ [45] ++ ascii "bar") = .ok (ascii "fooBar") ∧
      validateCmdName ([] ++ [45] ++ ascii "foo") = .ok (ascii "Foo") :=
  ⟨validateCmdName_one_separator (ascii "foo") (ascii "bar") 45
      (by decide) (by decide) (by decide) (by decide) (by decide) (by decide),
   validateCmdName_one_separator [] (ascii "foo") 45
      (by decide) (by decide) (by decide) (by decide) (by decide) (by decide)⟩

/-- C4: camelCase folding of several words.  For a non-empty separator-free ASCII
word `w0`, pairs `(r, w)` of a non-empty run of separators `r` and a non-empty
separator-free ASCII word `w`, and a final run `t` of separators (possibly empty),
the result on `w0 ++ r1 ++ w1 ++ ... ++ rn ++ wn ++ t` is
`w0 ++ cap(w1) ++ ... ++ cap(wn)`. -/
theorem validateCmdName_camelCase (w0 : GoString) (ps : List (GoString × GoString))
    (t : GoString) (hw0 : w0 ≠ []) (hA : isASCII w0) (hF : sepFree w0)
    (hps : ∀ p ∈ ps, p.1 ≠ [] ∧ allSep p.1 ∧ p.2 ≠ [] ∧ isASCII p.2 ∧ sepFree p.2)
    (ht : allSep t) :
    validateCmdName (w0 ++ joinRuns ps ++ t) = .ok (w0 ++ capWords ps) := by
  rw [validateCmdName_eq]
  cases w0 with
  | nil => exact absurd rfl hw0
  | cons a w =>
    have ha : isSep a = false := hF a (by simp)
    have hF2 : sepFree w := fun b hb => hF b (by simp [hb])
    have h1 := verbatim_word_append (joinRuns ps ++ t) w hF2
    have h2 := verbatim_joinRuns t ht ps hps
    simp only [List.cons_append, List.append_assoc, closedForm, ha, Bool.false_eq_true,
      if_false, h1, h2]

theorem validateCmdName_camelCase_witness :
    validateCmdName (ascii "foo" ++ joinRuns [(ascii "_", ascii "bar"), (ascii "-", ascii "baz")]
      ++ []) = .ok (ascii "fooBarBaz") ∧
    validateCmdName (ascii "x9" ++ joinRuns [(ascii "-_", ascii "yz")] ++ ascii "__")
      = .ok (ascii "x9Yz") :=
  ⟨validateCmdName_camelCase (ascii "foo") [(ascii "_", ascii "bar"), (ascii "-", ascii "baz")] []
      (by decide) (by decide) (by decide) (by decide) (by decide),
   validateCmdName_camelCase (ascii "x9") [(ascii "-_", ascii "yz")] (ascii "__")
      (by decide) (by decide) (by decide) (by decide) (by decide)⟩

/-- C5: a second pass is not always a no-op: on the ASCII input `--a` the first
pass returns `-A` and the second pass, applied to `-A`, returns `A`. -/
theorem validateCmdName_second_pass_changes :
    isASCII (ascii "--a") ∧ validateCmdName (ascii "--a") = .ok (ascii "-A") ∧
      validateCmdName (ascii "-A") = .ok (ascii "A") ∧ ascii "A" ≠ ascii "-A" := by
  decide

/-- C6: the function never fails.  For every sequence of bytes, an iteration of
the loop entered with `i < len(source)` evaluates `source[i]`, `source[:i]` and
`source[i+1]` within bounds from any `output`, and the function returns a
string: neither the out-of-range outcome nor fuel exhaustion arises. -/
theorem validateCmdName_never_fails (source : GoString) :
    (∀ (i : Nat) (output : GoString), i < source.length →
        loopBody source i output ≠ .panic) ∧
      ∃ r, validateCmdName source = .ok r := by
  refine ⟨?_, closedForm source, validateCmdName_eq source⟩
  intro i output hi
  have hle : i ≤ source.length := by omega
  have hget : source[i]? = some source[i] := List.getElem?_eq_getElem hi
  unfold loopBody
  rw [hget]
  simp only
  by_cases hs : isSep source[i] = true
  · by_cases hlast : (i : Int) = (source.length : Int) - 1
    · by_cases ho : output = [] <;> simp [hs, ho, sliceTo, hle, hlast]
    · have h1 : i + 1 < source.length := by omega
      have hget1 : source[i + 1]? = some source[i + 1] := List.getElem?_eq_getElem h1
      by_cases ho : output = [] <;> by_cases hd : isSep source[i + 1] = true <;>
        simp [hs, ho, sliceTo, hle, hlast, hget1, hd]
  · by_cases ho : output = [] <;> simp [hs, ho]

theorem validateCmdName_never_fails_witness :
    ∃ r, validateCmdName [45, 233, 95, 95, 255, 45] = .ok r :=
  (validateCmdName_never_fails [45, 233, 95, 95, 255, 45]).2

/-- C7: a trailing separator is dropped: for a non-empty ASCII string `s` and a
separator `c`, the result on `s ++ [c]` is the result on `s`. -/
theorem validateCmdName_trailing_separator (s : GoString) (c : Nat)
    (hs : s ≠ []) (_hA : isASCII s) (hc : isSep c = true) :
    validateCmdName (s ++ [c]) = validateCmdName s := by
  rw [validateCmdName_eq, validateCmdName_eq, closedForm_snoc_sep hc s hs]

theorem validateCmdName_trailing_separator_witness :
    validateCmdName (ascii "foo" ++ [45]) = validateCmdName (ascii "foo") ∧
      validateCmdName (ascii "foo") = .ok (ascii "foo") :=
  ⟨validateCmdName_trailing_separator (ascii "foo") 45 (by decide) (by decide) (by decide),
   by decide⟩

/-- C8: consecutive separators collapse: for a non-empty ASCII string `a`, an
ASCII string `b` and separators `c1`, `c2`, the result on `a ++ [c1, c2] ++ b` is
the result on `a ++ [c2] ++ b`. -/
theorem validateCmdName_collapse (a b : GoString) (c1 c2 : Nat)
    (ha : a ≠ []) (_hA : isASCII a) (_hB : isASCII b)
    (h1 : isSep c1 = true) (h2 : isSep c2 = true) :
    validateCmdName (a ++ [c1, c2] ++ b) = validateCmdName (a ++ [c2] ++ b) := by
  rw [validateCmdName_eq, validateCmdName_eq]
  have := closedForm_collapse h1 h2 a b ha
  simpa using this

theorem validateCmdName_collapse_witness :
    validateCmdName (ascii "foo" ++ [45, 45] ++ ascii "bar")
        = validateCmdName (ascii "foo" ++ [45] ++ ascii "bar") ∧
      validateCmdName (ascii "foo" ++ [45] ++ ascii "bar") = .ok (ascii "fooBar") :=
  ⟨validateCmdName_collapse (ascii "foo") (ascii "bar") 45 45
      (by decide) (by decide) (by decide) (by decide) (by decide),
   by decide⟩

/-- C9: the part of the name before the first separator is kept verbatim: for an
ASCII string `source` the function returns a string of which the bytes of
`source` before its first dash or underscore form a prefix, and when `source`
starts with a byte that is not a separator the result starts with that byte. -/
theorem validateCmdName_keeps_head (source : GoString) (_hA : isASCII source) :
    ∃ r, validateCmdName source = .ok r ∧
      source.takeWhile (fun b => !isSep b) <+: r ∧
      (∀ (b : Nat) (t : GoString), source = b :: t → isSep b = false → r.head? = some b) := by
  refine ⟨closedForm source, validateCmdName_eq source, ?_, ?_⟩
  · cases source with
    | nil => simp [closedForm]
    | cons c t =>
      by_cases hc : isSep c = true
      · simp [List.takeWhile, hc]
      · simp only [Bool.not_eq_true] at hc
        simp only [List.takeWhile, hc, closedForm, Bool.not_false, Bool.false_eq_true,
          if_false]
        exact (List.prefix_cons_inj c).mpr (takeWhile_verbatim t)
  · intro b t hsrc hb
    subst hsrc
    simp [closedForm, hb]

theorem validateCmdName_keeps_head_witness :
    ∃ r, validateCmdName (ascii "Srv-x_y") = .ok r ∧
      (ascii "Srv-x_y").takeWhile (fun b => !isSep b) <+: r ∧
      (∀ (b : Nat) (t : GoString), ascii "Srv-x_y" = b :: t → isSep b = false →
        r.head? = some b) :=
  validateCmdName_keeps_head (ascii "Srv-x_y") (by decide)

theorem infix_of_drop (pat s : GoString) (n : Nat)
    (h : pat.isPrefixOf (s.drop n) = true) : pat <:+: s := by
  have h1 : pat <+: s.drop n := List.isPrefixOf_iff_prefix.mp h
  exact h1.isInfix.trans (List.drop_suffix n s).isInfix

set_option maxRecDepth 100000 in
/-- C10: end-to-end naming.  For the argument `my-server` and the flag `parent`
at its default `rootCmd`, the command name is `myServer`, the file written is
`CmdPath` joined with `myServer.go`, and the template with the fields `cmdName`
and `parentName` substituted declares `myServerCmd` and registers it in its
initializer with `rootCmd.AddCommand(myServerCmd)`. -/
theorem addCmd_my_server (join : GoString → GoString → GoString) (cmdPath : GoString) :
    validateCmdName (ascii "my-server") = .ok (ascii "myServer") ∧
    parentNameDefault = ascii "rootCmd" ∧
    ∃ contents,
      addCmdRun join cmdPath parentNameDefault [ascii "my-server"]
        = some (join cmdPath (ascii "myServer.go"), contents) ∧
      contents = substituteFields
        [(ascii "parentName", ascii "rootCmd"), (ascii "cmdName", ascii "myServer")] 0
        template ∧
      ascii "var myServerCmd = &goman.Command\x7b\n" <:+: contents ∧
      ascii "func init() \x7b\n\trootCmd.AddCommand(myServerCmd)\n" <:+: contents := by
  have h : validateCmdName (ascii "my-server") = .ok (ascii "myServer") := by decide
  have hp : parentNameDefault = ascii "rootCmd" := rfl
  have hgo : ascii "myServer" ++ ascii ".go" = ascii "myServer.go" := by decide
  refine ⟨h, hp, substituteFields
    [(ascii "parentName", ascii "rootCmd"), (ascii "cmdName", ascii "myServer")] 0
    template, ?_, rfl, infix_of_drop _ _ 187 (by decide), infix_of_drop _ _ 662 (by decide)⟩
  simp only [addCmdRun, h, createCmdFile, hp, hgo]

/-! ## Termination of the scan loop -/

/-- An iteration that continues moves the index forward by 1 or 2 and keeps it
within the length of the string. -/
theorem loopBody_next_index {source : GoString} {i i2 : Nat} {output output2 : GoString}
    (hb : loopBody source i output = .next i2 output2) :
    (i2 = i + 1 ∨ i2 = i + 2) ∧ i2 ≤ source.length := by
  unfold loopBody at hb
  cases hc : source[i]? with
  | none => rw [hc] at hb; cases hb
  | some c =>
    have hi : i < source.length := by
      by_contra hn
      have : source[i]? = none := List.getElem?_eq_none (by omega)
      rw [this] at hc
      cases hc
    rw [hc] at hb
    simp only at hb
    by_cases hs : isSep c = true
    · simp only [hs, if_true] at hb
      cases ho : (if output = [] then sliceTo source i else some output) with
      | none => rw [ho] at hb; cases hb
      | some out =>
        rw [ho] at hb
        simp only at hb
        by_cases hlast : (i : Int) = (source.length : Int) - 1
        · simp only [hlast, if_true] at hb
          cases hb
        · simp only [hlast, if_false] at hb
          cases hd : source[i + 1]? with
          | none => rw [hd] at hb; cases hb
          | some d =>
            have h1 : i + 1 < source.length := by
              by_contra hn
              have : source[i + 1]? = none := List.getElem?_eq_none (by omega)
              rw [this] at hd
              cases hd
            rw [hd] at hb
            simp only at hb
            by_cases hs2 : isSep d = true
            · simp only [hs2, if_true, Step.next.injEq] at hb
              exact ⟨Or.inl hb.1.symm, by omega⟩
            · simp only [hs2, Bool.false_eq_true, if_false, Step.next.injEq] at hb
              exact ⟨Or.inr hb.1.symm, by omega⟩
    · simp only [hs, Bool.false_eq_true, if_false, Step.next.injEq] at hb
      exact ⟨Or.inl hb.1.symm, by omega⟩

theorem iterations_le (source : GoString) :
    ∀ (fuel i : Nat) (output : GoString),
      iterations source fuel i output ≤ source.length - i := by
  intro fuel
  induction fuel with
  | zero => intro i output; simp [iterations]
  | succ fuel ih =>
    intro i output
    rw [iterations]
    by_cases hi : i < source.length
    · rw [if_pos hi]
      cases hb : loopBody source i output with
      | next i2 output2 =>
        have h := loopBody_next_index hb
        have := ih i2 output2
        simp only
        omega
      | stop o => simp only; omega
      | panic => simp only; omega
    · rw [if_neg hi]
      omega

theorem loop_ne_outOfFuel (source : GoString) :
    ∀ (fuel i : Nat) (output : GoString), source.length ≤ i + fuel →
      loop source fuel i output ≠ .outOfFuel := by
  intro fuel
  induction fuel with
  | zero =>
    intro i output h
    have hi : ¬ i < source.length := by omega
    simp [loop, hi]
  | succ fuel ih =>
    intro i output h
    rw [loop]
    by_cases hi : i < source.length
    · rw [if_pos hi]
      cases hb : loopBody source i output with
      | next i2 output2 =>
        have h2 := loopBody_next_index hb
        exact ih i2 output2 (by omega)
      | stop o => simp
      | panic => simp
    · rw [if_neg hi]
      simp

/-- C12: the scan loop terminates for every input.  An iteration that does not
break increases the index `i` by 1 or by 2 and keeps it at most `len(source)`;
whatever the number of iterations allowed, the body runs at most `len(source)`
times; and with `len(source)` iterations allowed the loop is left by its
condition or by `break`, never for lack of iterations. -/
theorem loop_terminates (source : GoString) :
    (∀ (i i2 : Nat) (output output2 : GoString),
        loopBody source i output = .next i2 output2 →
          (i2 = i + 1 ∨ i2 = i + 2) ∧ i2 ≤ source.length) ∧
      (∀ fuel : Nat, iterations source fuel 0 [] ≤ source.length) ∧
      loop source source.length 0 [] ≠ .outOfFuel := by
  refine ⟨fun i i2 output output2 hb => loopBody_next_index hb, ?_, ?_⟩
  · intro fuel
    have := iterations_le source fuel 0 []
    omega
  · exact loop_ne_outOfFuel source source.length 0 [] (by omega)

theorem loop_terminates_witness :
    iterations (ascii "a-b_") 100 0 [] ≤ (ascii "a-b_").length ∧
      iterations (ascii "a-b_") 100 0 [] = 3 :=
  ⟨(loop_terminates (ascii "a-b_")).2.1 100, by decide⟩

/-! ## Letters and separators of the result -/

theorem isSep_eq_false_iff (b : Nat) : isSep b = false ↔ b ≠ 45 ∧ b ≠ 95 := by
  simp [isSep]

theorem isSep_upper {d : Nat} (hd : isSep d = false) : isSep (upper d) = false := by
  rw [isSep_eq_false_iff] at hd ⊢
  unfold upper
  split_ifs <;> omega

theorem lower_upper (d : Nat) : lower (upper d) = lower d := by
  unfold lower upper
  split_ifs <;> omega

theorem letters_cons_sep {a : Nat} (t : GoString) (ha : isSep a = true) :
    letters (a :: t) = letters t := by
  simp [letters, ha]

theorem letters_cons_nonsep {a : Nat} (t : GoString) (ha : isSep a = false) :
    letters (a :: t) = lower a :: letters t := by
  simp [letters, ha]

theorem isASCII_tail {a : Nat} {t : GoString} (h : isASCII (a :: t)) : isASCII t :=
  fun b hb => h b (List.mem_cons_of_mem a hb)

theorem isASCII_head {a : Nat} {t : GoString} (h : isASCII (a :: t)) : a < 128 :=
  h a (List.mem_cons_self a t)

theorem sepFree_cons {a : Nat} {t : GoString} (ha : isSep a = false) (ht : sepFree t) :
    sepFree (a :: t) := by
  intro b hb
  rcases List.mem_cons.mp hb with h | h
  · exact h ▸ ha
  · exact ht b h

/-- On ASCII input `scan` yields no separator and keeps the letters. -/
theorem scan_ascii :
    ∀ q : GoString, isASCII q → sepFree (scan q) ∧ letters (scan q) = letters q := by
  intro q
  induction q using scan.induct with
  | case1 => intro _; exact ⟨fun b hb => by simp [scan] at hb, rfl⟩
  | case2 a ha =>
    intro _
    rw [scan_single_sep ha, letters_cons_sep _ ha]
    exact ⟨fun b hb => by simp at hb, rfl⟩
  | case3 a ha =>
    intro hA
    simp only [Bool.not_eq_true] at ha
    have hs : scan [a] = [a] := by
      rw [scan_cons_nonsep _ ha, runeToString_ascii (isASCII_head hA)]
      rfl
    rw [hs]
    exact ⟨sepFree_cons ha (fun b hb => by simp at hb), rfl⟩
  | case4 a d rest ha hd ih =>
    intro hA
    rw [scan_sep_sep _ ha hd, letters_cons_sep _ ha]
    exact ih (isASCII_tail hA)
  | case5 a d rest ha hd ih =>
    intro hA
    simp only [Bool.not_eq_true] at hd
    have hA1 := isASCII_tail hA
    obtain ⟨h1, h2⟩ := ih (isASCII_tail hA1)
    rw [scan_sep_nonsep _ ha hd, runeToString_toUpper_ascii (isASCII_head hA1),
      letters_cons_sep _ ha, letters_cons_nonsep _ hd]
    refine ⟨sepFree_cons (isSep_upper hd) h1, ?_⟩
    simp only [List.singleton_append]
    rw [letters_cons_nonsep _ (isSep_upper hd), lower_upper, h2]
  | case6 a d rest ha ih =>
    intro hA
    simp only [Bool.not_eq_true] at ha
    obtain ⟨h1, h2⟩ := ih (isASCII_tail hA)
    rw [scan_cons_nonsep _ ha, runeToString_ascii (isASCII_head hA), letters_cons_nonsep _ ha]
    refine ⟨sepFree_cons ha h1, ?_⟩
    simp only [List.singleton_append]
    rw [letters_cons_nonsep _ ha, h2]

theorem verbatim_ascii :
    ∀ t : GoString, isASCII t → sepFree (verbatim t) ∧ letters (verbatim t) = letters t := by
  intro t
  induction t with
  | nil => intro _; exact ⟨fun b hb => by simp [verbatim] at hb, rfl⟩
  | cons a t ih =>
    intro hA
    by_cases ha : isSep a = true
    · have hv : verbatim (a :: t) = scan (a :: t) := by simp [verbatim, ha]
      rw [hv]
      exact scan_ascii (a :: t) hA
    · simp only [Bool.not_eq_true] at ha
      have hv : verbatim (a :: t) = a :: verbatim t := by simp [verbatim, ha]
      obtain ⟨h1, h2⟩ := ih (isASCII_tail hA)
      rw [hv, letters_cons_nonsep _ ha, letters_cons_nonsep _ ha, h2]
      exact ⟨sepFree_cons ha h1, rfl⟩

theorem closedForm_letters (x : GoString) (hA : isASCII x) :
    letters (closedForm x) = letters x := by
  cases x with
  | nil => rfl
  | cons c t =>
    by_cases hc : isSep c = true
    · cases t with
      | nil => simp [closedForm, hc, lead]
      | cons d rest =>
        have hA1 := isASCII_tail hA
        by_cases hd : isSep d = true
        · have h := (scan_ascii (d :: rest) hA1).2
          simp only [closedForm, hc, if_true, lead, hd]
          rw [letters_cons_sep _ hc, letters_cons_sep _ hc, h]
        · simp only [Bool.not_eq_true] at hd
          have h := (scan_ascii rest (isASCII_tail hA1)).2
          simp only [closedForm, hc, if_true, lead, hd, Bool.false_eq_true, if_false]
          rw [runeToString_toUpper_ascii (isASCII_head hA1), letters_cons_sep _ hc,
            letters_cons_nonsep _ hd]
          simp only [List.singleton_append]
          rw [letters_cons_nonsep _ (isSep_upper hd), lower_upper, h]
    · simp only [Bool.not_eq_true] at hc
      have h := (verbatim_ascii t (isASCII_tail hA)).2
      simp only [closedForm, hc, Bool.false_eq_true, if_false]
      rw [letters_cons_nonsep _ hc, letters_cons_nonsep _ hc, h]

/-- C13: no non-separator character is lost, added or reordered, and only its
case can change: for an ASCII string `x` the result, with its dashes and
underscores removed and lower-cased, is `x` with its dashes and underscores
removed and lower-cased. -/
theorem validateCmdName_keeps_letters (x : GoString) (hA : isASCII x) :
    ∃ r, validateCmdName x = .ok r ∧ letters r = letters x :=
  ⟨closedForm x, validateCmdName_eq x, closedForm_letters x hA⟩

theorem validateCmdName_keeps_letters_witness :
    ∃ r, validateCmdName (ascii "--Foo_bar-") = .ok r ∧
      letters r = letters (ascii "--Foo_bar-") :=
  validateCmdName_keeps_letters (ascii "--Foo_bar-") (by decide)

theorem sepFree_no_sep {r : GoString} (h : sepFree r) : ¬ ∃ b ∈ r, isSep b = true := by
  rintro ⟨b, hb, hs⟩
  rw [h b hb] at hs
  cases hs

/-- C14: exact condition under which a separator survives.  For an ASCII string
`source` the result holds a dash or an underscore exactly when `source` is one
separator byte or starts with two separator bytes, and in these cases the
result begins with the first byte of `source`. -/
theorem validateCmdName_separator_survives_iff (source : GoString) (hA : isASCII source) :
    ∃ r, validateCmdName source = .ok r ∧
      ((∃ b ∈ r, isSep b = true) ↔
        ((∃ c, source = [c] ∧ isSep c = true) ∨
          (∃ c d rest, source = c :: d :: rest ∧ isSep c = true ∧ isSep d = true))) ∧
      ((∃ b ∈ r, isSep b = true) → ∃ c t, source = c :: t ∧ r.head? = some c) := by
  refine ⟨closedForm source, validateCmdName_eq source, ?_⟩
  cases source with
  | nil => simp [closedForm]
  | cons c t =>
    by_cases hc : isSep c = true
    · cases t with
      | nil =>
        have hr : closedForm [c] = [c] := by simp [closedForm, hc, lead]
        rw [hr]
        exact ⟨⟨fun _ => Or.inl ⟨c, rfl, hc⟩, fun _ => ⟨c, by simp, hc⟩⟩,
          fun _ => ⟨c, [], rfl, rfl⟩⟩
      | cons d rest =>
        have hA1 := isASCII_tail hA
        by_cases hd : isSep d = true
        · have hr : closedForm (c :: d :: rest) = c :: scan (d :: rest) := by
            simp [closedForm, hc, lead, hd]
          rw [hr]
          exact ⟨⟨fun _ => Or.inr ⟨c, d, rest, rfl, hc, hd⟩, fun _ => ⟨c, by simp, hc⟩⟩,
            fun _ => ⟨c, d :: rest, rfl, rfl⟩⟩
        · simp only [Bool.not_eq_true] at hd
          have hr : closedForm (c :: d :: rest) = upper d :: scan rest := by
            simp [closedForm, hc, lead, hd, runeToString_toUpper_ascii (isASCII_head hA1)]
          rw [hr]
          have hfree : sepFree (upper d :: scan rest) :=
            sepFree_cons (isSep_upper hd) (scan_ascii rest (isASCII_tail hA1)).1
          have hno := sepFree_no_sep hfree
          refine ⟨⟨fun h => absurd h hno, ?_⟩, fun h => absurd h hno⟩
          rintro (⟨c2, h2, -⟩ | ⟨c2, d2, rest2, h2, -, hd2⟩)
          · simp at h2
          · simp only [List.cons.injEq] at h2
            rw [← h2.2.1, hd] at hd2
            cases hd2
    · simp only [Bool.not_eq_true] at hc
      have hr : closedForm (c :: t) = c :: verbatim t := by simp [closedForm, hc]
      rw [hr]
      have hfree : sepFree (c :: verbatim t) :=
        sepFree_cons hc (verbatim_ascii t (isASCII_tail hA)).1
      have hno := sepFree_no_sep hfree
      refine ⟨⟨fun h => absurd h hno, ?_⟩, fun h => absurd h hno⟩
      rintro (⟨c2, h2, hs2⟩ | ⟨c2, d2, rest2, h2, hs2, -⟩)
      · simp only [List.cons.injEq] at h2
        rw [← h2.1, hc] at hs2
        cases hs2
      · simp only [List.cons.injEq] at h2
        rw [← h2.1, hc] at hs2
        cases hs2

theorem validateCmdName_separator_survives_iff_witness :
    ∃ r, validateCmdName (ascii "-_ab") = .ok r ∧
      ((∃ b ∈ r, isSep b = true) ↔
        ((∃ c, ascii "-_ab" = [c] ∧ isSep c = true) ∨
          (∃ c d rest, ascii "-_ab" = c :: d :: rest ∧ isSep c = true ∧ isSep d = true))) ∧
      ((∃ b ∈ r, isSep b = true) → ∃ c t, ascii "-_ab" = c :: t ∧ r.head? = some c) :=
  validateCmdName_separator_survives_iff (ascii "-_ab") (by decide)

/-! ## Comparison with the reference scanner of the specification -/

/-- Once a separator has been seen the reference scanner appends `scan`. -/
theorem referenceScan_seen (source : GoString) :
    ∀ q : GoString, isASCII q → ∀ (i : Nat) (acc : GoString),
      referenceScan source i true acc q = acc ++ scan q := by
  intro q
  induction q using scan.induct with
  | case1 => intro _ i acc; simp [referenceScan, scan]
  | case2 a ha => intro _ i acc; simp [referenceScan, scan, ha]
  | case3 a ha =>
    intro hA i acc
    simp only [Bool.not_eq_true] at ha
    rw [scan_cons_nonsep _ ha, runeToString_ascii (isASCII_head hA)]
    simp [referenceScan, ha, scan]
  | case4 a d rest ha hd ih =>
    intro hA i acc
    rw [scan_sep_sep _ ha hd, ← ih (isASCII_tail hA) (i + 1) acc]
    simp [referenceScan, ha, hd]
  | case5 a d rest ha hd ih =>
    intro hA i acc
    simp only [Bool.not_eq_true] at hd
    have hA1 := isASCII_tail hA
    have h := ih (isASCII_tail hA1) (i + 2) (acc ++ [upper d])
    rw [scan_sep_nonsep _ ha hd, runeToString_toUpper_ascii (isASCII_head hA1)]
    simp only [referenceScan, ha, hd, if_true, Bool.false_eq_true, if_false, h,
      List.append_assoc]
  | case6 a d rest ha ih =>
    intro hA i acc
    simp only [Bool.not_eq_true] at ha
    have h := ih (isASCII_tail hA) (i + 1) (acc ++ [a])
    rw [scan_cons_nonsep _ ha, runeToString_ascii (isASCII_head hA)]
    simp only [referenceScan, ha, if_true, Bool.false_eq_true, if_false, h,
      List.append_assoc]

theorem referenceScan_first_sep (source : GoString) (i c : Nat) (acc t : GoString)
    (hc : isSep c = true) :
    referenceScan source i false acc (c :: t)
      = referenceScan source i true (source.take i) (c :: t) := by
  cases t with
  | nil => simp [referenceScan, hc]
  | cons d rest => by_cases hd : isSep d = true <;> simp [referenceScan, hc, hd]

theorem referenceScan_unseen_nonsep (source : GoString) (i c : Nat) (t : GoString)
    (hc : isSep c = false) :
    referenceScan source i false [] (c :: t) = referenceScan source (i + 1) false [] t := by
  cases t with
  | nil => simp [referenceScan, hc]
  | cons d rest => simp [referenceScan, hc]

theorem referenceScan_unseen (source : GoString) :
    ∀ (q p : GoString), isASCII q → source = p ++ q →
      referenceScan source p.length false [] q = p ++ verbatim q := by
  intro q
  induction q with
  | nil => intro p _ hsrc; simp [referenceScan, verbatim, hsrc]
  | cons c t ih =>
    intro p hA hsrc
    by_cases hc : isSep c = true
    · have htake : source.take p.length = p := by rw [hsrc]; exact List.take_left p (c :: t)
      rw [referenceScan_first_sep source p.length c [] t hc,
        referenceScan_seen source (c :: t) hA, htake]
      simp [verbatim, hc]
    · simp only [Bool.not_eq_true] at hc
      have h := ih (p ++ [c]) (isASCII_tail hA) (by simp [hsrc])
      rw [referenceScan_unseen_nonsep source p.length c t hc]
      simp only [List.length_append, List.length_singleton] at h
      rw [h]
      simp [verbatim, hc]

theorem reference_eq_verbatim (source : GoString) (hA : isASCII source) :
    reference source = verbatim source := by
  have := referenceScan_unseen source source [] hA rfl
  simpa [reference] using this

theorem closedForm_eq_verbatim (source : GoString)
    (h : startsWithBareSeparator source = false) : closedForm source = verbatim source := by
  cases source with
  | nil => rfl
  | cons c t =>
    by_cases hc : isSep c = true
    · cases t with
      | nil => simp [startsWithBareSeparator, hc] at h
      | cons d rest =>
        by_cases hd : isSep d = true
        · simp [startsWithBareSeparator, hc, hd] at h
        · simp [closedForm, verbatim, lead, scan, hc, hd]
    · simp [closedForm, verbatim, hc]

/-- The function agrees with the reference scanner on every ASCII input that is
not a single separator and does not start with two separators. -/
theorem validateCmdName_eq_reference (source : GoString) (hA : isASCII source)
    (h : startsWithBareSeparator source = false) :
    validateCmdName source = .ok (reference source) := by
  rw [validateCmdName_eq, closedForm_eq_verbatim source h, reference_eq_verbatim source hA]

/-- C11: the function does not return what the reference scanner of section 4.1
returns on every ASCII input.  On `--a` the function re-initializes `output` at
the second separator and returns `-A`, the reference scanner returns `A`; on
`-` the function returns `-`, the reference scanner the empty accumulator. -/
theorem validateCmdName_differs_from_reference :
    isASCII (ascii "--a") ∧ validateCmdName (ascii "--a") = .ok (ascii "-A") ∧
      reference (ascii "--a") = ascii "A" ∧
      validateCmdName (ascii "-") = .ok (ascii "-") ∧ reference (ascii "-") = [] := by
  decide

end Goman
